import Mathlib

/-!
Verification of the hydrax sampling-based MPC framework.

The repository's core algorithm modules (the `PredictiveSampling` and `MPPI`
controllers in `hydrax/algs/`, the rollout evaluator and the task base in
`hydrax/task_base.py`, and the interactive MPC loop in `hydrax/mpc.py`) are
not among the provided source files; only their tests, task subclasses and
callers are.  Those parts are therefore modelled from the specification, as
marked on each definition.  The CartPole task costs are embedded directly
from `hydrax/tasks/cart_pole.py`.

Scalars of JAX arrays are modelled as exact rationals (ℚ) where only
field and order operations occur, and as real numbers (ℝ) where the task
costs use trigonometric functions.
-/

namespace Hydrax

/-- A single control vector (one time step), entries per control dimension. -/
abbrev Ctrl := List ℚ

/-- A control sequence: `planning_horizon - 1` control vectors. -/
abbrev ControlSeq := List (List ℚ)

/-- Modelled from the spec: `PolicyParams` (spec §3) — the persistent state of a
sampling controller: the nominal mean control sequence and an explicit
randomness state (a JAX PRNG key, modelled as a natural number). -/
structure PolicyParams where
  mean : ControlSeq
  rng : ℕ
deriving Repr, DecidableEq

/-- Modelled from the spec: `RolloutBatch` (spec §3) — per candidate, the
per-timestep costs, the per-timestep observations, and the control sequence
actually executed. -/
structure RolloutBatch where
  costs : List (List ℚ)
  observations : List (List (List ℚ))
  controls : List ControlSeq
deriving Repr, DecidableEq

/-- A nominal mean has shape `(planning_horizon - 1, control_dim)`:
`Hm1` rows, each of length `dim`. -/
def WellShaped (Hm1 dim : ℕ) (m : ControlSeq) : Prop :=
  m.length = Hm1 ∧ ∀ row ∈ m, row.length = dim

instance (Hm1 dim : ℕ) (m : ControlSeq) : Decidable (WellShaped Hm1 dim m) := by
  unfold WellShaped; infer_instance

/-- Minimum value and its first index in a list of costs (stable argmin:
exact ties are broken toward the smaller index). -/
def minWithIdx : List ℚ → Option (ℚ × ℕ)
  | [] => none
  | c :: rest =>
    match minWithIdx rest with
    | none => some (c, 0)
    | some (b, j) => if c ≤ b then some (c, 0) else some (b, j + 1)

/-- First index attaining the minimum of a cost list (0 on the empty list). -/
def argminIdx (l : List ℚ) : ℕ :=
  match minWithIdx l with
  | none => 0
  | some (_, j) => j

/-- The minimum of a cost list (0 on the empty list). -/
def minCost (l : List ℚ) : ℚ :=
  match minWithIdx l with
  | none => 0
  | some (b, _) => b

theorem minWithIdx_eq_none {l : List ℚ} (h : minWithIdx l = none) : l = [] := by
  cases l with
  | nil => rfl
  | cons c rest =>
    simp only [minWithIdx] at h
    cases hr : minWithIdx rest with
    | none => rw [hr] at h; simp at h
    | some p => rw [hr] at h; obtain ⟨b, j⟩ := p; dsimp at h; split at h <;> simp at h

theorem minWithIdx_spec : ∀ (l : List ℚ) (b : ℚ) (j : ℕ), minWithIdx l = some (b, j) →
    j < l.length ∧ l.getD j 0 = b ∧ (∀ k, k < l.length → b ≤ l.getD k 0) ∧
    (∀ k, k < j → b < l.getD k 0) := by
  intro l
  induction l with
  | nil => intro b j h; simp [minWithIdx] at h
  | cons c rest ih =>
    intro b j h
    simp only [minWithIdx] at h
    cases hr : minWithIdx rest with
    | none =>
      have hrest := minWithIdx_eq_none hr
      rw [hr] at h
      simp only [Option.some.injEq, Prod.mk.injEq] at h
      obtain ⟨hb, hj⟩ := h
      subst hb; subst hj; subst hrest
      refine ⟨by simp, by simp, ?_, by omega⟩
      intro k hk
      simp only [List.length_cons, List.length_nil] at hk
      cases k with
      | zero => simp
      | succ k' => omega
    | some p =>
      obtain ⟨b', j'⟩ := p
      rw [hr] at h
      obtain ⟨hj'len, hget, hmin, hstrict⟩ := ih b' j' hr
      dsimp at h
      by_cases hc : c ≤ b'
      · rw [if_pos hc] at h
        simp only [Option.some.injEq, Prod.mk.injEq] at h
        obtain ⟨hb, hj⟩ := h; subst hb; subst hj
        refine ⟨by simp, by simp, ?_, by omega⟩
        intro k hk
        cases k with
        | zero => simp
        | succ k' =>
          simp only [List.getD_cons_succ]
          exact le_trans hc (hmin k' (by simpa using hk))
      · rw [if_neg hc] at h
        simp only [Option.some.injEq, Prod.mk.injEq] at h
        obtain ⟨hb, hj⟩ := h; subst hb; subst hj
        push_neg at hc
        refine ⟨by simpa using hj'len, by simpa using hget, ?_, ?_⟩
        · intro k hk
          cases k with
          | zero => simpa using le_of_lt hc
          | succ k' =>
            simp only [List.getD_cons_succ]
            exact hmin k' (by simpa using hk)
        · intro k hk
          cases k with
          | zero => simpa using hc
          | succ k' =>
            simp only [List.getD_cons_succ]
            exact hstrict k' (by omega)

theorem minWithIdx_of_ne_nil {l : List ℚ} (h : l ≠ []) :
    minWithIdx l = some (minCost l, argminIdx l) := by
  cases hm : minWithIdx l with
  | none => exact absurd (minWithIdx_eq_none hm) h
  | some p =>
    obtain ⟨b, j⟩ := p
    simp [minCost, argminIdx, hm]

theorem argminIdx_spec (l : List ℚ) (h : l ≠ []) :
    argminIdx l < l.length ∧
    (∀ k, k < l.length → l.getD (argminIdx l) 0 ≤ l.getD k 0) ∧
    (∀ k, k < argminIdx l → l.getD (argminIdx l) 0 < l.getD k 0) := by
  have hm := minWithIdx_of_ne_nil h
  obtain ⟨hlen, hget, hmin, hstrict⟩ := minWithIdx_spec l (minCost l) (argminIdx l) hm
  rw [hget]
  exact ⟨hlen, hmin, hstrict⟩

/-- `getD` through `map List.sum`, at a valid index. -/
theorem getD_map_sum (l : List (List ℚ)) (k : ℕ) (hk : k < l.length) :
    (l.map List.sum).getD k 0 = (l.getD k []).sum := by
  rw [List.getD_eq_getElem _ _ (by simpa using hk), List.getD_eq_getElem _ _ hk]
  simp

/-- Modelled from the spec: advancing the JAX PRNG key (`jax.random.split`).
The split is a deterministic function of the input key that always returns a
different key; it is modelled as the successor. -/
def splitKey (k : ℕ) : ℕ := k + 1

/-- Modelled from the spec: `init_params` (spec §4.3) — nominal trajectory
initialized to zeros, randomness seed set explicitly. -/
def init_params (Hm1 dim seed : ℕ) : PolicyParams :=
  { mean := List.replicate Hm1 (List.replicate dim (0 : ℚ)), rng := seed }

/-- Modelled from the spec: one perturbed candidate — the nominal mean plus
`noise_level`-scaled noise, independently per timestep and per control
dimension.  The Gaussian draw is modelled by an arbitrary deterministic
function `f` of the timestep and dimension (already specialized to the key
and sample index); the claims do not depend on its distribution. -/
def perturbCand (noise_level : ℚ) (f : ℕ → ℕ → ℚ) (m : ControlSeq) : ControlSeq :=
  (List.range m.length).map (fun t =>
    (List.range (m.getD t []).length).map (fun d =>
      (m.getD t []).getD d 0 + noise_level * f t d))

/-- Modelled from the spec: `sample_controls` (spec §4.3, missing
`hydrax/algs/` module) — draws `num_samples` perturbations of the nominal
trajectory, concatenates the unperturbed nominal as candidate 0, and advances
the randomness state deterministically.  `noiseFn key i t d` models the
Gaussian noise drawn from PRNG key `key` for sample `i`, timestep `t`,
control dimension `d`. -/
def sample_controls (num_samples : ℕ) (noise_level : ℚ)
    (noiseFn : ℕ → ℕ → ℕ → ℕ → ℚ) (p : PolicyParams) :
    List ControlSeq × PolicyParams :=
  (p.mean ::
    (List.range num_samples).map (fun i =>
      perturbCand noise_level (fun t d => noiseFn p.rng i t d) p.mean),
   { mean := p.mean, rng := splitKey p.rng })

/-- Modelled from the spec: Predictive Sampling `update_params` (spec §4.3) —
total cost per candidate is the sum over the horizon of the per-step costs;
the argmin candidate's control sequence is selected verbatim as the new
nominal mean (stable argmin, first index wins exact ties). -/
def ps_update_params (p : PolicyParams) (r : RolloutBatch) : PolicyParams :=
  { mean := r.controls.getD (argminIdx (r.costs.map List.sum)) [],
    rng := p.rng }

/-- Modelled from the spec: the per-step cost column of one rollout
(spec §4.2) — starting from `s`, apply `running_cost` and `step` for each of
the `H-1` control vectors; the terminal entry is
`running_cost(state_H, 0) + terminal_cost(state_H)` at the final state. -/
def rolloutCosts {σ : Type} (step : σ → Ctrl → σ) (running_cost : σ → Ctrl → ℚ)
    (terminal_cost : σ → ℚ) (dim : ℕ) : σ → List Ctrl → List ℚ
  | s, [] => [running_cost s (List.replicate dim 0) + terminal_cost s]
  | s, u :: us =>
    running_cost s u :: rolloutCosts step running_cost terminal_cost dim (step s u) us

/-- The state trajectory of one rollout: `[x_0, ..., x_{H-1}]`. -/
def rolloutStates {σ : Type} (step : σ → Ctrl → σ) : σ → List Ctrl → List σ
  | s, [] => [s]
  | s, u :: us => s :: rolloutStates step (step s u) us

/-- The final state of one rollout after applying all its controls. -/
def finalState {σ : Type} (step : σ → Ctrl → σ) (s : σ) (us : List Ctrl) : σ :=
  us.foldl step s

/-- Modelled from the spec: `eval_rollouts` (spec §4.2, missing
`hydrax/task_base.py`) — every candidate is rolled out independently from the
identical starting state; observations are the task's projection `obs` of the
visited states; the controls actually executed are returned unchanged. -/
def eval_rollouts {σ : Type} (step : σ → Ctrl → σ) (running_cost : σ → Ctrl → ℚ)
    (terminal_cost : σ → ℚ) (obs : σ → List ℚ) (dim : ℕ)
    (s : σ) (controls : List ControlSeq) : RolloutBatch :=
  { costs := controls.map (rolloutCosts step running_cost terminal_cost dim s),
    observations := controls.map (fun us => (rolloutStates step s us).map obs),
    controls := controls }

/-- Modelled from the spec: `optimize` (spec §4.3) — a single fused step:
`sample_controls`, then `eval_rollouts`, then `update_params` (Predictive
Sampling variant), returning the updated parameters and the rollouts. -/
def optimize {σ : Type} (step : σ → Ctrl → σ) (running_cost : σ → Ctrl → ℚ)
    (terminal_cost : σ → ℚ) (obs : σ → List ℚ) (dim num_samples : ℕ)
    (noise_level : ℚ) (noiseFn : ℕ → ℕ → ℕ → ℕ → ℚ)
    (s : σ) (p : PolicyParams) : PolicyParams × RolloutBatch :=
  let sc := sample_controls num_samples noise_level noiseFn p
  let r := eval_rollouts step running_cost terminal_cost obs dim s sc.1
  (ps_update_params sc.2 r, r)

/-- Modelled from the spec: the warm-start shift (spec §4.4) — after a real
control step the nominal trajectory drops its executed first entry and
appends a duplicate of the final entry (zeros when empty). -/
def shift_mean (dim : ℕ) (m : ControlSeq) : ControlSeq :=
  m.drop 1 ++ [m.getLastD (List.replicate dim (0 : ℚ))]

/-- Modelled from the spec: MPPI weight computation (spec §4.3) — subtract the
minimum cost, divide by the temperature, exponentiate the negation.  The
exponential is modelled by an arbitrary strictly positive function `ef`; the
claimed properties depend only on the positivity of `exp`. -/
def mppiWeights (ef : ℚ → ℚ) (temperature : ℚ) (costs : List ℚ) : List ℚ :=
  costs.map (fun c => ef (-((c - minCost costs) / temperature)))

/-- Modelled from the spec: the MPPI new nominal mean — the weighted average
of all candidates' control sequences, entrywise over the `(Hm1, dim)` shape,
computed as the weighted sum divided by the total weight. -/
def mppiNewMean (ef : ℚ → ℚ) (temperature : ℚ) (costs : List ℚ)
    (cands : List ControlSeq) (Hm1 dim : ℕ) : ControlSeq :=
  let w := mppiWeights ef temperature costs
  (List.range Hm1).map (fun t =>
    (List.range dim).map (fun d =>
      ((List.range costs.length).map (fun k =>
        w.getD k 0 * ((cands.getD k []).getD t []).getD d 0)).sum / w.sum))

/-- Modelled from the spec: MPPI `update_params` (spec §4.3) — total cost per
candidate, softmax-like weights, new nominal mean as the weighted average of
all candidates. -/
def mppi_update_params (ef : ℚ → ℚ) (temperature : ℚ) (Hm1 dim : ℕ)
    (p : PolicyParams) (r : RolloutBatch) : PolicyParams :=
  { mean := mppiNewMean ef temperature (r.costs.map List.sum) r.controls Hm1 dim,
    rng := p.rng }

/-- Modelled from the spec: the error taxonomy entry for malformed
hyperparameters (spec §7). -/
inductive ConfigError where
  | InvalidConfiguration
deriving Repr, DecidableEq

/-- Modelled from the spec: the validated Predictive Sampling configuration. -/
structure PSConfig where
  num_samples : ℕ
  planning_horizon : ℕ
  noise_level : ℚ
deriving Repr, DecidableEq

/-- Modelled from the spec: the validated MPPI configuration. -/
structure MPPIConfig where
  num_samples : ℕ
  planning_horizon : ℕ
  noise_level : ℚ
  temperature : ℚ
deriving Repr, DecidableEq

/-- Modelled from the spec: Predictive Sampling controller construction
(spec §7) — a non-positive sample count or a planning horizon < 2 raises
`InvalidConfiguration` eagerly at construction, before any call to
`optimize`, `sample_controls` or `update_params` (no controller value exists
on the error path). -/
def mkPredictiveSampling (num_samples planning_horizon : ℕ) (noise_level : ℚ) :
    Except ConfigError PSConfig :=
  if num_samples = 0 ∨ planning_horizon < 2 then
    .error .InvalidConfiguration
  else
    .ok ⟨num_samples, planning_horizon, noise_level⟩

/-- Modelled from the spec: MPPI controller construction (spec §7) — a
non-positive temperature, non-positive sample count or planning horizon < 2
raises `InvalidConfiguration` eagerly at construction. -/
def mkMPPI (num_samples planning_horizon : ℕ) (noise_level temperature : ℚ) :
    Except ConfigError MPPIConfig :=
  if temperature ≤ 0 ∨ num_samples = 0 ∨ planning_horizon < 2 then
    .error .InvalidConfiguration
  else
    .ok ⟨num_samples, planning_horizon, noise_level, temperature⟩

/-- A MuJoCo state as seen by the CartPole task: generalized positions and
velocities (`state.qpos`, `state.qvel`). -/
structure CartPoleState where
  qpos : List ℝ
  qvel : List ℝ

/-- Sum of squares of a vector (`jnp.sum(jnp.square(x))`). -/
noncomputable def sumSq (l : List ℝ) : ℝ := (l.map (fun x => x ^ 2)).sum

/-- From `hydrax/tasks/cart_pole.py`, `CartPole._distance_to_upright`:
`theta = qpos[1] - pi`; the squared norm of `[cos(theta) - 1, sin(theta)]`. -/
noncomputable def CartPole.distance_to_upright (state : CartPoleState) : ℝ :=
  (Real.cos (state.qpos.getD 1 0 - Real.pi) - 1) ^ 2 +
    (Real.sin (state.qpos.getD 1 0 - Real.pi)) ^ 2

/-- From `hydrax/tasks/cart_pole.py`, `CartPole.running_cost`:
`theta_cost + 0.01 * sum(qvel^2) + 0.001 * sum(control^2)`. -/
noncomputable def CartPole.running_cost (state : CartPoleState) (control : List ℝ) : ℝ :=
  CartPole.distance_to_upright state + 0.01 * sumSq state.qvel +
    0.001 * sumSq control

/-- From `hydrax/tasks/cart_pole.py`, `CartPole.terminal_cost`:
`theta_cost + 0.01 * sum(qvel^2)`. -/
noncomputable def CartPole.terminal_cost (state : CartPoleState) : ℝ :=
  CartPole.distance_to_upright state + 0.01 * sumSq state.qvel

theorem sumSq_replicate_zero (n : ℕ) : sumSq (List.replicate n (0 : ℝ)) = 0 := by
  simp [sumSq]

theorem sample_controls_fst_length (ns : ℕ) (nl : ℚ)
    (noiseFn : ℕ → ℕ → ℕ → ℕ → ℚ) (p : PolicyParams) :
    (sample_controls ns nl noiseFn p).1.length = ns + 1 := by
  simp [sample_controls]

theorem sample_controls_fst_head (ns : ℕ) (nl : ℚ)
    (noiseFn : ℕ → ℕ → ℕ → ℕ → ℚ) (p : PolicyParams) :
    (sample_controls ns nl noiseFn p).1.getD 0 [] = p.mean := rfl

theorem getD_mem {α : Type} (l : List α) (k : ℕ) (d : α) (hk : k < l.length) :
    l.getD k d ∈ l := by
  rw [List.getD_eq_getElem _ _ hk]
  exact List.getElem_mem hk

theorem perturbCand_shape (Hm1 dim : ℕ) (nl : ℚ) (f : ℕ → ℕ → ℚ)
    (m : ControlSeq) (h : WellShaped Hm1 dim m) :
    WellShaped Hm1 dim (perturbCand nl f m) := by
  obtain ⟨hlen, hrow⟩ := h
  constructor
  · simp [perturbCand, hlen]
  · intro row hrowmem
    simp only [perturbCand, List.mem_map, List.mem_range] at hrowmem
    obtain ⟨t, ht, hteq⟩ := hrowmem
    subst hteq
    simp only [List.length_map, List.length_range]
    exact hrow _ (getD_mem m t [] ht)

theorem sample_controls_cand_shape (ns Hm1 dim : ℕ) (nl : ℚ)
    (noiseFn : ℕ → ℕ → ℕ → ℕ → ℚ) (p : PolicyParams)
    (h : WellShaped Hm1 dim p.mean) :
    ∀ c ∈ (sample_controls ns nl noiseFn p).1, WellShaped Hm1 dim c := by
  intro c hc
  simp only [sample_controls, List.mem_cons, List.mem_map, List.mem_range] at hc
  rcases hc with hc | ⟨i, _, hc⟩
  · exact hc ▸ h
  · exact hc ▸ perturbCand_shape Hm1 dim nl _ p.mean h

theorem rolloutCosts_length {σ : Type} (step : σ → Ctrl → σ)
    (rc : σ → Ctrl → ℚ) (tc : σ → ℚ) (dim : ℕ) :
    ∀ (us : List Ctrl) (s : σ), (rolloutCosts step rc tc dim s us).length = us.length + 1 := by
  intro us
  induction us with
  | nil => intro s; simp [rolloutCosts]
  | cons u rest ih => intro s; simp [rolloutCosts, ih]

theorem rolloutCosts_getLastD {σ : Type} (step : σ → Ctrl → σ)
    (rc : σ → Ctrl → ℚ) (tc : σ → ℚ) (dim : ℕ) :
    ∀ (us : List Ctrl) (s : σ) (d : ℚ),
      (rolloutCosts step rc tc dim s us).getLastD d =
        rc (finalState step s us) (List.replicate dim 0) + tc (finalState step s us) := by
  intro us
  induction us with
  | nil => intro s d; simp [rolloutCosts, finalState]
  | cons u rest ih =>
    intro s d
    simp only [rolloutCosts, List.getLastD_cons, finalState, List.foldl_cons]
    exact ih (step s u) (rc s u)

theorem rolloutStates_start {σ : Type} (step : σ → Ctrl → σ)
    (us : List Ctrl) (s : σ) : (rolloutStates step s us).getD 0 s = s := by
  cases us <;> simp [rolloutStates]

theorem list_sum_map_div (l : List ℚ) (c : ℚ) :
    (l.map (fun x => x / c)).sum = l.sum / c := by
  induction l with
  | nil => simp
  | cons a rest ih => simp [ih, add_div]

theorem getLastD_mem {α : Type} : ∀ (l : List α) (d : α), l ≠ [] → l.getLastD d ∈ l := by
  intro l
  induction l with
  | nil => intro d h; exact absurd rfl h
  | cons a rest ih =>
    intro d _
    cases hr : rest with
    | nil => simp [hr]
    | cons b t =>
      rw [List.getLastD_cons]
      right
      rw [← hr]
      exact ih a (by simp [hr])

/-- Claim C10: for the CartPole task, `terminal_cost state` equals
`running_cost state 0` evaluated at the zero control vector — the terminal
cost is exactly the running cost with the control-effort term removed, since
that term vanishes at zero control. -/
theorem cart_pole_terminal_eq_running_at_zero (state : CartPoleState) (n : ℕ) :
    CartPole.terminal_cost state = CartPole.running_cost state (List.replicate n 0) := by
  simp [CartPole.terminal_cost, CartPole.running_cost, sumSq_replicate_zero]

/-- Claim C8: constructing a controller with malformed hyperparameters —
MPPI with temperature ≤ 0, or any controller with a non-positive sample
count or a planning horizon < 2 — yields `InvalidConfiguration` at
construction time (the error leaves no controller value on which
`optimize`, `sample_controls` or `update_params` could be called). -/
theorem controller_construction_validation (ns H : ℕ) (nl temp : ℚ) :
    (mkMPPI ns H nl temp = .error .InvalidConfiguration ↔
      (temp ≤ 0 ∨ ns = 0 ∨ H < 2)) ∧
    (mkPredictiveSampling ns H nl = .error .InvalidConfiguration ↔
      (ns = 0 ∨ H < 2)) := by
  constructor
  · unfold mkMPPI
    split <;> rename_i h <;> simp [h]
  · unfold mkPredictiveSampling
    split <;> rename_i h <;> simp [h]

/-- Claim C5: `sample_controls` is deterministic — two calls with the same
input `PolicyParams` return identical controls and identical new params —
and the randomness state in the returned params always differs from the
randomness state in the input params. -/
theorem sample_controls_deterministic (ns : ℕ) (nl : ℚ)
    (noiseFn : ℕ → ℕ → ℕ → ℕ → ℚ) (p q : PolicyParams) (h : p = q) :
    sample_controls ns nl noiseFn p = sample_controls ns nl noiseFn q ∧
    (sample_controls ns nl noiseFn p).2.rng ≠ p.rng := by
  subst h
  exact ⟨rfl, by simp [sample_controls, splitKey]⟩

/-- Concrete instance of `sample_controls_deterministic`. -/
theorem sample_controls_deterministic_witness :
    ((⟨[[(0 : ℚ)]], 0⟩ : PolicyParams) = (⟨[[(0 : ℚ)]], 0⟩ : PolicyParams)) ∧
    (sample_controls 2 1 (fun k i t d => (k + i + t + d : ℚ)) ⟨[[(0 : ℚ)]], 0⟩ =
        sample_controls 2 1 (fun k i t d => (k + i + t + d : ℚ)) ⟨[[(0 : ℚ)]], 0⟩ ∧
      (sample_controls 2 1 (fun k i t d => (k + i + t + d : ℚ)) ⟨[[(0 : ℚ)]], 0⟩).2.rng ≠
        (⟨[[(0 : ℚ)]], 0⟩ : PolicyParams).rng) :=
  ⟨rfl, sample_controls_deterministic 2 1 (fun k i t d => (k + i + t + d : ℚ)) _ _ rfl⟩

/-- Claim C2: for every valid configuration and every `PolicyParams` with a
well-shaped mean, `sample_controls` returns exactly `num_samples + 1`
candidate control sequences, each of shape `(planning_horizon - 1,
control_dim)`, and the candidate at index 0 is exactly the input params'
nominal mean, with no noise added. -/
theorem sample_controls_count_and_nominal (ns Hm1 dim : ℕ) (nl : ℚ)
    (noiseFn : ℕ → ℕ → ℕ → ℕ → ℚ) (p : PolicyParams)
    (h : WellShaped Hm1 dim p.mean) :
    (sample_controls ns nl noiseFn p).1.length = ns + 1 ∧
    (∀ c ∈ (sample_controls ns nl noiseFn p).1, WellShaped Hm1 dim c) ∧
    (sample_controls ns nl noiseFn p).1.getD 0 [] = p.mean :=
  ⟨sample_controls_fst_length ns nl noiseFn p,
   sample_controls_cand_shape ns Hm1 dim nl noiseFn p h, rfl⟩

/-- Concrete instance of `sample_controls_count_and_nominal`. -/
theorem sample_controls_count_and_nominal_witness :
    WellShaped 2 1 (PolicyParams.mk [[(1 : ℚ)], [2]] 5).mean ∧
    ((sample_controls 3 1 (fun k i t d => (k + i + t + d : ℚ))
        (PolicyParams.mk [[(1 : ℚ)], [2]] 5)).1.length = 3 + 1 ∧
      (∀ c ∈ (sample_controls 3 1 (fun k i t d => (k + i + t + d : ℚ))
        (PolicyParams.mk [[(1 : ℚ)], [2]] 5)).1, WellShaped 2 1 c) ∧
      (sample_controls 3 1 (fun k i t d => (k + i + t + d : ℚ))
        (PolicyParams.mk [[(1 : ℚ)], [2]] 5)).1.getD 0 [] =
        (PolicyParams.mk [[(1 : ℚ)], [2]] 5).mean) :=
  ⟨by decide,
   sample_controls_count_and_nominal 3 2 1 1 (fun k i t d => (k + i + t + d : ℚ))
     (PolicyParams.mk [[(1 : ℚ)], [2]] 5) (by decide)⟩

/-- Claim C1: Predictive Sampling's `update_params` returns a params whose
mean is a verbatim copy of the candidate control sequence with the smallest
total cost (sum of per-step costs over the horizon), exact ties broken by
first index; in particular the selected candidate's total cost is less than
or equal to candidate 0's total cost. -/
theorem ps_update_params_selects_argmin (p : PolicyParams) (r : RolloutBatch)
    (hne : r.costs ≠ []) (hlen : r.controls.length = r.costs.length) :
    (ps_update_params p r).mean =
      r.controls.getD (argminIdx (r.costs.map List.sum)) [] ∧
    argminIdx (r.costs.map List.sum) < r.controls.length ∧
    (∀ j, j < r.costs.length →
      (r.costs.getD (argminIdx (r.costs.map List.sum)) []).sum ≤
        (r.costs.getD j []).sum) ∧
    (∀ j, j < argminIdx (r.costs.map List.sum) →
      (r.costs.getD (argminIdx (r.costs.map List.sum)) []).sum <
        (r.costs.getD j []).sum) ∧
    (r.costs.getD (argminIdx (r.costs.map List.sum)) []).sum ≤
      (r.costs.getD 0 []).sum := by
  have hlne : r.costs.map List.sum ≠ [] := by simpa using hne
  obtain ⟨hlt, hmin, hstrict⟩ := argminIdx_spec (r.costs.map List.sum) hlne
  have hlenl : (r.costs.map List.sum).length = r.costs.length := List.length_map _ _
  have hia : argminIdx (r.costs.map List.sum) < r.costs.length := hlenl ▸ hlt
  have key : ∀ j, j < r.costs.length →
      (r.costs.map List.sum).getD j 0 = (r.costs.getD j []).sum :=
    fun j hj => getD_map_sum r.costs j hj
  have hmin' : ∀ j, j < r.costs.length →
      (r.costs.getD (argminIdx (r.costs.map List.sum)) []).sum ≤
        (r.costs.getD j []).sum := by
    intro j hj
    have := hmin j (hlenl ▸ hj)
    rwa [key _ hia, key _ hj] at this
  refine ⟨rfl, hlen ▸ hia, hmin', ?_, ?_⟩
  · intro j hj
    have := hstrict j hj
    rwa [key _ hia, key _ (lt_trans hj hia)] at this
  · exact hmin' 0 (List.length_pos.mpr hne)

/-- Concrete instance of `ps_update_params_selects_argmin`. -/
theorem ps_update_params_selects_argmin_witness :
    (RolloutBatch.mk [[(1 : ℚ), 2], [0, 1]] [] [[[(5 : ℚ)]], [[6]]]).costs ≠ [] ∧
    (RolloutBatch.mk [[(1 : ℚ), 2], [0, 1]] [] [[[(5 : ℚ)]], [[6]]]).controls.length =
      (RolloutBatch.mk [[(1 : ℚ), 2], [0, 1]] [] [[[(5 : ℚ)]], [[6]]]).costs.length ∧
    ((ps_update_params (PolicyParams.mk [[(9 : ℚ)]] 3)
        (RolloutBatch.mk [[(1 : ℚ), 2], [0, 1]] [] [[[(5 : ℚ)]], [[6]]])).mean =
      (RolloutBatch.mk [[(1 : ℚ), 2], [0, 1]] [] [[[(5 : ℚ)]], [[6]]]).controls.getD
        (argminIdx ((RolloutBatch.mk [[(1 : ℚ), 2], [0, 1]] []
          [[[(5 : ℚ)]], [[6]]]).costs.map List.sum)) [] ∧
    argminIdx ((RolloutBatch.mk [[(1 : ℚ), 2], [0, 1]] []
        [[[(5 : ℚ)]], [[6]]]).costs.map List.sum) <
      (RolloutBatch.mk [[(1 : ℚ), 2], [0, 1]] [] [[[(5 : ℚ)]], [[6]]]).controls.length ∧
    (∀ j, j < (RolloutBatch.mk [[(1 : ℚ), 2], [0, 1]] [] [[[(5 : ℚ)]], [[6]]]).costs.length →
      ((RolloutBatch.mk [[(1 : ℚ), 2], [0, 1]] [] [[[(5 : ℚ)]], [[6]]]).costs.getD
          (argminIdx ((RolloutBatch.mk [[(1 : ℚ), 2], [0, 1]] []
            [[[(5 : ℚ)]], [[6]]]).costs.map List.sum)) []).sum ≤
        ((RolloutBatch.mk [[(1 : ℚ), 2], [0, 1]] [] [[[(5 : ℚ)]], [[6]]]).costs.getD j []).sum) ∧
    (∀ j, j < argminIdx ((RolloutBatch.mk [[(1 : ℚ), 2], [0, 1]] []
        [[[(5 : ℚ)]], [[6]]]).costs.map List.sum) →
      ((RolloutBatch.mk [[(1 : ℚ), 2], [0, 1]] [] [[[(5 : ℚ)]], [[6]]]).costs.getD
          (argminIdx ((RolloutBatch.mk [[(1 : ℚ), 2], [0, 1]] []
            [[[(5 : ℚ)]], [[6]]]).costs.map List.sum)) []).sum <
        ((RolloutBatch.mk [[(1 : ℚ), 2], [0, 1]] [] [[[(5 : ℚ)]], [[6]]]).costs.getD j []).sum) ∧
    ((RolloutBatch.mk [[(1 : ℚ), 2], [0, 1]] [] [[[(5 : ℚ)]], [[6]]]).costs.getD
        (argminIdx ((RolloutBatch.mk [[(1 : ℚ), 2], [0, 1]] []
          [[[(5 : ℚ)]], [[6]]]).costs.map List.sum)) []).sum ≤
      ((RolloutBatch.mk [[(1 : ℚ), 2], [0, 1]] [] [[[(5 : ℚ)]], [[6]]]).costs.getD 0 []).sum) :=
  ⟨by decide, by decide,
   ps_update_params_selects_argmin (PolicyParams.mk [[(9 : ℚ)]] 3)
     (RolloutBatch.mk [[(1 : ℚ), 2], [0, 1]] [] [[[(5 : ℚ)]], [[6]]])
     (by decide) (by decide)⟩

theorem getD_map_of_lt {α β : Type} (f : α → β) (l : List α) (k : ℕ)
    (d : α) (e : β) (hk : k < l.length) : (l.map f).getD k e = f (l.getD k d) := by
  rw [List.getD_eq_getElem _ _ (by simpa using hk), List.getD_eq_getElem _ _ hk,
    List.getElem_map]

theorem range_getD (n k : ℕ) (h : k < n) : (List.range n).getD k 0 = k := by
  rw [List.getD_eq_getElem _ _ (by simpa using h)]
  simp

/-- Claim C3: `eval_rollouts` returns a batch whose costs array has shape
`(num_samples + 1, planning_horizon)`, whose last column equals
`running_cost(state_H, 0) + terminal_cost(state_H)` at each candidate's
final state, and in which every candidate's rollout starts from the
identical input state (each candidate's cost column is computed from the
shared start state, and each candidate's state trajectory begins at it). -/
theorem eval_rollouts_shape_and_start {σ : Type} (step : σ → Ctrl → σ)
    (rc : σ → Ctrl → ℚ) (tc : σ → ℚ) (obs : σ → List ℚ) (dim Hm1 ns : ℕ)
    (s : σ) (controls : List ControlSeq)
    (hK : controls.length = ns + 1) (hs : ∀ c ∈ controls, c.length = Hm1) :
    (eval_rollouts step rc tc obs dim s controls).costs.length = ns + 1 ∧
    (∀ row ∈ (eval_rollouts step rc tc obs dim s controls).costs,
      row.length = Hm1 + 1) ∧
    (∀ k, k < ns + 1 →
      (eval_rollouts step rc tc obs dim s controls).costs.getD k [] =
        rolloutCosts step rc tc dim s (controls.getD k []) ∧
      ((eval_rollouts step rc tc obs dim s controls).costs.getD k []).getLastD 0 =
        rc (finalState step s (controls.getD k [])) (List.replicate dim 0) +
          tc (finalState step s (controls.getD k [])) ∧
      (rolloutStates step s (controls.getD k [])).getD 0 s = s) := by
  refine ⟨by simp [eval_rollouts, hK], ?_, ?_⟩
  · intro row hrow
    simp only [eval_rollouts, List.mem_map] at hrow
    obtain ⟨c, hc, hrow⟩ := hrow
    rw [← hrow, rolloutCosts_length, hs c hc]
  · intro k hk
    have hk' : k < controls.length := by omega
    have hgd : (eval_rollouts step rc tc obs dim s controls).costs.getD k [] =
        rolloutCosts step rc tc dim s (controls.getD k []) := by
      simp only [eval_rollouts]
      exact getD_map_of_lt _ controls k [] [] hk'
    refine ⟨hgd, ?_, rolloutStates_start step (controls.getD k []) s⟩
    rw [hgd, rolloutCosts_getLastD]

/-- Concrete instance of `eval_rollouts_shape_and_start`. -/
theorem eval_rollouts_shape_and_start_witness :
    ([[[(1 : ℚ)]], [[2]]] : List ControlSeq).length = 1 + 1 ∧
    (∀ c ∈ ([[[(1 : ℚ)]], [[2]]] : List ControlSeq), c.length = 1) ∧
    ((eval_rollouts (fun s u => s + u.sum) (fun s u => s * 2 + u.sum)
        (fun s => s) (fun s => [s]) 1 (0 : ℚ)
        [[[(1 : ℚ)]], [[2]]]).costs.length = 1 + 1 ∧
      (∀ row ∈ (eval_rollouts (fun s u => s + u.sum) (fun s u => s * 2 + u.sum)
        (fun s => s) (fun s => [s]) 1 (0 : ℚ)
        [[[(1 : ℚ)]], [[2]]]).costs, row.length = 1 + 1) ∧
      (∀ k, k < 1 + 1 →
        (eval_rollouts (fun s u => s + u.sum) (fun s u => s * 2 + u.sum)
            (fun s => s) (fun s => [s]) 1 (0 : ℚ)
            [[[(1 : ℚ)]], [[2]]]).costs.getD k [] =
          rolloutCosts (fun s u => s + u.sum) (fun s u => s * 2 + u.sum)
            (fun s => s) 1 (0 : ℚ) (([[[(1 : ℚ)]], [[2]]] : List ControlSeq).getD k []) ∧
        ((eval_rollouts (fun s u => s + u.sum) (fun s u => s * 2 + u.sum)
            (fun s => s) (fun s => [s]) 1 (0 : ℚ)
            [[[(1 : ℚ)]], [[2]]]).costs.getD k []).getLastD 0 =
          (fun s u => s * 2 + u.sum)
              (finalState (fun s u => s + u.sum) (0 : ℚ)
                (([[[(1 : ℚ)]], [[2]]] : List ControlSeq).getD k []))
              (List.replicate 1 0) +
            (fun s => s)
              (finalState (fun s u => s + u.sum) (0 : ℚ)
                (([[[(1 : ℚ)]], [[2]]] : List ControlSeq).getD k [])) ∧
        (rolloutStates (fun s u => s + u.sum) (0 : ℚ)
            (([[[(1 : ℚ)]], [[2]]] : List ControlSeq).getD k [])).getD 0 0 = 0)) :=
  ⟨by decide, by decide,
   eval_rollouts_shape_and_start (fun s u => s + u.sum) (fun s u => s * 2 + u.sum)
     (fun s => s) (fun s => [s]) 1 1 1 (0 : ℚ) [[[(1 : ℚ)]], [[2]]]
     (by decide) (by decide)⟩

theorem mppiWeights_ne_nil (ef : ℚ → ℚ) (temperature : ℚ) (costs : List ℚ)
    (h : costs ≠ []) : mppiWeights ef temperature costs ≠ [] := by
  simpa [mppiWeights] using h

theorem mppiWeights_sum_pos (ef : ℚ → ℚ) (temperature : ℚ) (costs : List ℚ)
    (hef : ∀ x, 0 < ef x) (h : costs ≠ []) :
    0 < (mppiWeights ef temperature costs).sum := by
  apply List.sum_pos
  · intro x hx
    simp only [mppiWeights, List.mem_map] at hx
    obtain ⟨c, -, hc⟩ := hx
    exact hc ▸ hef _
  · exact mppiWeights_ne_nil ef temperature costs h

theorem list_range_sum_div (n : ℕ) (g : ℕ → ℚ) (c : ℚ) :
    ((List.range n).map (fun k => g k / c)).sum = ((List.range n).map g).sum / c := by
  rw [← list_sum_map_div, List.map_map]
  rfl

/-- Claim C4: for MPPI's `update_params`, for any vector of per-candidate
total costs the weights obtained by subtracting the minimum cost, dividing
by the temperature and exponentiating sum to 1 after normalization, and the
new nominal mean is entrywise the weighted average of all candidates'
control sequences under those normalized weights.  The exponential is any
strictly positive function `ef`. -/
theorem mppi_weights_normalize_and_average (ef : ℚ → ℚ) (temperature : ℚ)
    (Hm1 dim : ℕ) (p : PolicyParams) (r : RolloutBatch)
    (hef : ∀ x, 0 < ef x) (hne : r.costs ≠ []) :
    ((mppiWeights ef temperature (r.costs.map List.sum)).map
        (fun wk => wk / (mppiWeights ef temperature (r.costs.map List.sum)).sum)).sum = 1 ∧
    (∀ t, t < Hm1 → ∀ d, d < dim →
      ((mppi_update_params ef temperature Hm1 dim p r).mean.getD t []).getD d 0 =
        ((List.range (r.costs.map List.sum).length).map (fun k =>
          (mppiWeights ef temperature (r.costs.map List.sum)).getD k 0 /
            (mppiWeights ef temperature (r.costs.map List.sum)).sum *
          ((r.controls.getD k []).getD t []).getD d 0)).sum) := by
  have hcne : r.costs.map List.sum ≠ [] := by simpa using hne
  have hS := mppiWeights_sum_pos ef temperature (r.costs.map List.sum) hef hcne
  constructor
  · rw [list_sum_map_div]
    exact div_self (ne_of_gt hS)
  · intro t ht d hd
    have houter : (mppi_update_params ef temperature Hm1 dim p r).mean.getD t [] =
        (List.range dim).map (fun d =>
          ((List.range (r.costs.map List.sum).length).map (fun k =>
            (mppiWeights ef temperature (r.costs.map List.sum)).getD k 0 *
              ((r.controls.getD k []).getD t []).getD d 0)).sum /
            (mppiWeights ef temperature (r.costs.map List.sum)).sum) := by
      simp only [mppi_update_params, mppiNewMean]
      rw [getD_map_of_lt _ (List.range Hm1) t 0 [] (by simpa using ht), range_getD Hm1 t ht]
    rw [houter, getD_map_of_lt _ (List.range dim) d 0 0 (by simpa using hd),
      range_getD dim d hd]
    simp only [div_mul_eq_mul_div]
    rw [list_range_sum_div]

/-- Concrete instance of `mppi_weights_normalize_and_average`. -/
theorem mppi_weights_normalize_and_average_witness :
    (∀ x : ℚ, 0 < (fun _ : ℚ => (1 : ℚ)) x) ∧
    (RolloutBatch.mk [[(1 : ℚ)], [2]] [] [[[(3 : ℚ)]], [[4]]]).costs ≠ [] ∧
    (((mppiWeights (fun _ : ℚ => (1 : ℚ)) 1
        ((RolloutBatch.mk [[(1 : ℚ)], [2]] [] [[[(3 : ℚ)]], [[4]]]).costs.map List.sum)).map
        (fun wk => wk / (mppiWeights (fun _ : ℚ => (1 : ℚ)) 1
          ((RolloutBatch.mk [[(1 : ℚ)], [2]] []
            [[[(3 : ℚ)]], [[4]]]).costs.map List.sum)).sum)).sum = 1 ∧
      (∀ t, t < 1 → ∀ d, d < 1 →
        ((mppi_update_params (fun _ : ℚ => (1 : ℚ)) 1 1 1 (PolicyParams.mk [] 0)
            (RolloutBatch.mk [[(1 : ℚ)], [2]] [] [[[(3 : ℚ)]], [[4]]])).mean.getD t []).getD d 0 =
          ((List.range ((RolloutBatch.mk [[(1 : ℚ)], [2]] []
              [[[(3 : ℚ)]], [[4]]]).costs.map List.sum).length).map (fun k =>
            (mppiWeights (fun _ : ℚ => (1 : ℚ)) 1
                ((RolloutBatch.mk [[(1 : ℚ)], [2]] []
                  [[[(3 : ℚ)]], [[4]]]).costs.map List.sum)).getD k 0 /
              (mppiWeights (fun _ : ℚ => (1 : ℚ)) 1
                ((RolloutBatch.mk [[(1 : ℚ)], [2]] []
                  [[[(3 : ℚ)]], [[4]]]).costs.map List.sum)).sum *
            (((RolloutBatch.mk [[(1 : ℚ)], [2]] []
                [[[(3 : ℚ)]], [[4]]]).controls.getD k []).getD t []).getD d 0)).sum)) :=
  ⟨fun _ => one_pos, by decide,
   mppi_weights_normalize_and_average (fun _ : ℚ => (1 : ℚ)) 1 1 1
     (PolicyParams.mk [] 0) (RolloutBatch.mk [[(1 : ℚ)], [2]] [] [[[(3 : ℚ)]], [[4]]])
     (fun _ => one_pos) (by decide)⟩

theorem ps_update_params_shape (Hm1 dim : ℕ) (p : PolicyParams) (r : RolloutBatch)
    (hne : r.costs ≠ []) (hlen : r.costs.length = r.controls.length)
    (hc : ∀ c ∈ r.controls, WellShaped Hm1 dim c) :
    WellShaped Hm1 dim (ps_update_params p r).mean := by
  have hlne : r.costs.map List.sum ≠ [] := by simpa using hne
  obtain ⟨hlt, -, -⟩ := argminIdx_spec _ hlne
  rw [List.length_map] at hlt
  exact hc _ (getD_mem r.controls _ [] (hlen ▸ hlt))

theorem getD_append_left {α : Type} :
    ∀ (l₁ l₂ : List α) (i : ℕ) (d : α), i < l₁.length →
      (l₁ ++ l₂).getD i d = l₁.getD i d := by
  intro l₁
  induction l₁ with
  | nil => intro _ i _ h; simp at h
  | cons a t ih =>
    intro l₂ i d h
    cases i with
    | zero => simp
    | succ i' =>
      simp only [List.cons_append, List.getD_cons_succ]
      exact ih l₂ i' d (by simpa using h)

theorem getD_drop_one {α : Type} (m : List α) (i : ℕ) (d : α) :
    (m.drop 1).getD i d = m.getD (i + 1) d := by
  cases m <;> simp

/-- Claim C6: the nominal mean always has shape
`(planning_horizon - 1, control_dim)` — after `init_params`, and preserved
by `sample_controls`, `update_params` and `optimize` — and the warm-start
shift after a real control step moves every entry one step forward:
the new trajectory's element at index `i` equals the previous trajectory's
element at index `i + 1` for `i < H - 2`. -/
theorem mean_shape_and_shift_invariant {σ : Type} (step : σ → Ctrl → σ)
    (rc : σ → Ctrl → ℚ) (tc : σ → ℚ) (obs : σ → List ℚ)
    (Hm1 dim ns seed : ℕ) (nl : ℚ) (noiseFn : ℕ → ℕ → ℕ → ℕ → ℚ)
    (s : σ) (p : PolicyParams) (m : ControlSeq) :
    WellShaped Hm1 dim (init_params Hm1 dim seed).mean ∧
    (WellShaped Hm1 dim p.mean →
      (sample_controls ns nl noiseFn p).2.mean = p.mean ∧
      WellShaped Hm1 dim (sample_controls ns nl noiseFn p).2.mean) ∧
    (∀ r : RolloutBatch, r.costs ≠ [] → r.costs.length = r.controls.length →
      (∀ c ∈ r.controls, WellShaped Hm1 dim c) →
      WellShaped Hm1 dim (ps_update_params p r).mean) ∧
    (WellShaped Hm1 dim p.mean →
      WellShaped Hm1 dim (optimize step rc tc obs dim ns nl noiseFn s p).1.mean) ∧
    (WellShaped Hm1 dim m → 1 ≤ Hm1 →
      WellShaped Hm1 dim (shift_mean dim m) ∧
      (∀ i, i + 1 < Hm1 → (shift_mean dim m).getD i [] = m.getD (i + 1) [])) := by
  refine ⟨?_, ?_, ?_, ?_, ?_⟩
  · refine ⟨by simp [init_params], ?_⟩
    intro row hrow
    simp only [init_params] at hrow
    rw [List.eq_of_mem_replicate hrow]
    simp
  · intro h
    exact ⟨rfl, h⟩
  · intro r hne hlen hc
    exact ps_update_params_shape Hm1 dim p r hne hlen hc
  · intro h
    show WellShaped Hm1 dim (ps_update_params (sample_controls ns nl noiseFn p).2
      (eval_rollouts step rc tc obs dim s (sample_controls ns nl noiseFn p).1)).mean
    apply ps_update_params_shape
    · simp [eval_rollouts, sample_controls]
    · simp [eval_rollouts]
    · intro c hc
      simp only [eval_rollouts] at hc
      exact sample_controls_cand_shape ns Hm1 dim nl noiseFn p h c hc
  · intro hm h1
    obtain ⟨hlen, hrow⟩ := hm
    have hmne : m ≠ [] := by
      intro h0
      rw [h0] at hlen
      simp at hlen
      omega
    refine ⟨⟨?_, ?_⟩, ?_⟩
    · simp only [shift_mean, List.length_append, List.length_drop,
        List.length_singleton]
      omega
    · intro row hrowmem
      simp only [shift_mean, List.mem_append, List.mem_singleton] at hrowmem
      rcases hrowmem with hd | hlast
      · exact hrow row (List.drop_subset 1 m hd)
      · rw [hlast]
        exact hrow _ (getLastD_mem m _ hmne)
    · intro i hi
      have hi' : i < (m.drop 1).length := by
        rw [List.length_drop]
        omega
      rw [shift_mean, getD_append_left _ _ _ _ hi', getD_drop_one]

/-- Concrete instance of `mean_shape_and_shift_invariant`. -/
theorem mean_shape_and_shift_invariant_witness :
    WellShaped 2 1 (init_params 2 1 0).mean ∧
    (WellShaped 2 1 (PolicyParams.mk [[(1 : ℚ)], [2]] 0).mean →
      (sample_controls 1 1 (fun _ _ _ _ => (1 : ℚ))
        (PolicyParams.mk [[(1 : ℚ)], [2]] 0)).2.mean =
        (PolicyParams.mk [[(1 : ℚ)], [2]] 0).mean ∧
      WellShaped 2 1 (sample_controls 1 1 (fun _ _ _ _ => (1 : ℚ))
        (PolicyParams.mk [[(1 : ℚ)], [2]] 0)).2.mean) ∧
    (∀ r : RolloutBatch, r.costs ≠ [] → r.costs.length = r.controls.length →
      (∀ c ∈ r.controls, WellShaped 2 1 c) →
      WellShaped 2 1 (ps_update_params (PolicyParams.mk [[(1 : ℚ)], [2]] 0) r).mean) ∧
    (WellShaped 2 1 (PolicyParams.mk [[(1 : ℚ)], [2]] 0).mean →
      WellShaped 2 1 (optimize (fun (s : ℚ) u => s + u.sum) (fun s u => s + u.sum)
        (fun s => s) (fun s => [s]) 1 1 1 (fun _ _ _ _ => (1 : ℚ)) (0 : ℚ)
        (PolicyParams.mk [[(1 : ℚ)], [2]] 0)).1.mean) ∧
    (WellShaped 2 1 [[(3 : ℚ)], [4]] → 1 ≤ 2 →
      WellShaped 2 1 (shift_mean 1 [[(3 : ℚ)], [4]]) ∧
      (∀ i, i + 1 < 2 →
        (shift_mean 1 [[(3 : ℚ)], [4]]).getD i [] =
          ([[(3 : ℚ)], [4]] : ControlSeq).getD (i + 1) [])) :=
  mean_shape_and_shift_invariant (fun (s : ℚ) u => s + u.sum) (fun s u => s + u.sum)
    (fun s => s) (fun s => [s]) 2 1 1 0 1 (fun _ _ _ _ => (1 : ℚ)) (0 : ℚ)
    (PolicyParams.mk [[(1 : ℚ)], [2]] 0) [[(3 : ℚ)], [4]]

/-- Counterexample to claim C9 as stated: a rollout batch whose per-candidate
total costs are not all equal (totals 0 and 10), on which Predictive
Sampling's `update_params` nevertheless returns the input mean unchanged —
the argmin is candidate 0, which holds the unchanged nominal. -/
theorem ps_update_nondegenerate_unchanged_cex :
    ((RolloutBatch.mk [[(0 : ℚ), 0], [5, 5]] [] [[[(0 : ℚ)]], [[1]]]).costs.getD 0 []).sum ≠
      ((RolloutBatch.mk [[(0 : ℚ), 0], [5, 5]] [] [[[(0 : ℚ)]], [[1]]]).costs.getD 1 []).sum ∧
    (ps_update_params (PolicyParams.mk [[(0 : ℚ)]] 7)
        (RolloutBatch.mk [[(0 : ℚ), 0], [5, 5]] [] [[[(0 : ℚ)]], [[1]]])).mean =
      (PolicyParams.mk [[(0 : ℚ)]] 7).mean := by
  exact ⟨by norm_num, by with_unfolding_all rfl⟩

/-- Claim C9 (amended): whenever some candidate whose control sequence
differs from the input params' mean has strictly smaller total cost than
every candidate whose control sequence equals that mean, the returned
params' mean differs from the input params' mean.  (Non-degeneracy of the
costs alone does not suffice: the argmin may be candidate 0, which holds
the unchanged nominal.) -/
theorem ps_update_mean_changes_when_nonnominal_beats (p : PolicyParams)
    (r : RolloutBatch) (hne : r.costs ≠ [])
    (j : ℕ) (hj : j < r.costs.length)
    (_hjne : r.controls.getD j [] ≠ p.mean)
    (hbeat : ∀ i, i < r.costs.length → r.controls.getD i [] = p.mean →
      (r.costs.getD j []).sum < (r.costs.getD i []).sum) :
    (ps_update_params p r).mean ≠ p.mean := by
  intro heq
  have hlne : r.costs.map List.sum ≠ [] := by simpa using hne
  obtain ⟨hlt, hmin, -⟩ := argminIdx_spec (r.costs.map List.sum) hlne
  rw [List.length_map] at hlt
  have heq' : r.controls.getD (argminIdx (r.costs.map List.sum)) [] = p.mean := heq
  have h1 := hbeat _ hlt heq'
  have h2 := hmin j (by simpa using hj)
  rw [getD_map_sum _ _ hlt, getD_map_sum _ _ hj] at h2
  exact absurd h1 (not_lt.mpr h2)

/-- Concrete instance of `ps_update_mean_changes_when_nonnominal_beats`. -/
theorem ps_update_mean_changes_when_nonnominal_beats_witness :
    (RolloutBatch.mk [[(5 : ℚ)], [1]] [] [[[(0 : ℚ)]], [[7]]]).costs ≠ [] ∧
    1 < (RolloutBatch.mk [[(5 : ℚ)], [1]] [] [[[(0 : ℚ)]], [[7]]]).costs.length ∧
    (RolloutBatch.mk [[(5 : ℚ)], [1]] [] [[[(0 : ℚ)]], [[7]]]).controls.getD 1 [] ≠
      (PolicyParams.mk [[(0 : ℚ)]] 0).mean ∧
    (ps_update_params (PolicyParams.mk [[(0 : ℚ)]] 0)
        (RolloutBatch.mk [[(5 : ℚ)], [1]] [] [[[(0 : ℚ)]], [[7]]])).mean ≠
      (PolicyParams.mk [[(0 : ℚ)]] 0).mean :=
  ⟨by decide, by decide, by decide,
   ps_update_mean_changes_when_nonnominal_beats (PolicyParams.mk [[(0 : ℚ)]] 0)
     (RolloutBatch.mk [[(5 : ℚ)], [1]] [] [[[(0 : ℚ)]], [[7]]])
     (by decide) 1 (by decide) (by decide)
     (by
       intro i hi hmean
       cases i with
       | zero => norm_num
       | succ i' =>
         cases i' with
         | zero => exact absurd hmean (by decide)
         | succ i'' =>
           have hl2 : (RolloutBatch.mk [[(5 : ℚ)], [1]] []
             [[[(0 : ℚ)]], [[7]]]).costs.length = 2 := rfl
           omega)⟩

/-- Stable argmin over any linearly ordered value type (exact ties broken
toward the smaller index); the extended order `WithTop ℚ` instance models
costs with +infinity. -/
def minWithIdxG {α : Type} [LinearOrder α] : List α → Option (α × ℕ)
  | [] => none
  | c :: rest =>
    match minWithIdxG rest with
    | none => some (c, 0)
    | some (b, j) => if c ≤ b then some (c, 0) else some (b, j + 1)

/-- First index attaining the minimum (0 on the empty list). -/
def argminIdxG {α : Type} [LinearOrder α] (l : List α) : ℕ :=
  match minWithIdxG l with
  | none => 0
  | some bj => bj.2

theorem minWithIdxG_eq_none {α : Type} [LinearOrder α] {l : List α}
    (h : minWithIdxG l = none) : l = [] := by
  cases l with
  | nil => rfl
  | cons c rest =>
    simp only [minWithIdxG] at h
    cases hr : minWithIdxG rest with
    | none => rw [hr] at h; simp at h
    | some bj => rw [hr] at h; obtain ⟨b, j⟩ := bj; dsimp at h; split at h <;> simp at h

theorem minWithIdxG_spec {α : Type} [LinearOrder α] (d : α) :
    ∀ (l : List α) (b : α) (j : ℕ), minWithIdxG l = some (b, j) →
    j < l.length ∧ l.getD j d = b ∧ (∀ k, k < l.length → b ≤ l.getD k d) ∧
    (∀ k, k < j → b < l.getD k d) := by
  intro l
  induction l with
  | nil => intro b j h; simp [minWithIdxG] at h
  | cons c rest ih =>
    intro b j h
    simp only [minWithIdxG] at h
    cases hr : minWithIdxG rest with
    | none =>
      have hrest := minWithIdxG_eq_none hr
      rw [hr] at h
      simp only [Option.some.injEq, Prod.mk.injEq] at h
      obtain ⟨hb, hj⟩ := h
      subst hb; subst hj; subst hrest
      refine ⟨by simp, by simp, ?_, by omega⟩
      intro k hk
      simp only [List.length_cons, List.length_nil] at hk
      cases k with
      | zero => simp
      | succ k' => omega
    | some bj =>
      obtain ⟨b', j'⟩ := bj
      rw [hr] at h
      obtain ⟨hj'len, hget, hmin, hstrict⟩ := ih b' j' hr
      dsimp at h
      by_cases hc : c ≤ b'
      · rw [if_pos hc] at h
        simp only [Option.some.injEq, Prod.mk.injEq] at h
        obtain ⟨hb, hj⟩ := h; subst hb; subst hj
        refine ⟨by simp, by simp, ?_, by omega⟩
        intro k hk
        cases k with
        | zero => simp
        | succ k' =>
          simp only [List.getD_cons_succ]
          exact le_trans hc (hmin k' (by simpa using hk))
      · rw [if_neg hc] at h
        simp only [Option.some.injEq, Prod.mk.injEq] at h
        obtain ⟨hb, hj⟩ := h; subst hb; subst hj
        push_neg at hc
        refine ⟨by simpa using hj'len, by simpa using hget, ?_, ?_⟩
        · intro k hk
          cases k with
          | zero => simpa using le_of_lt hc
          | succ k' =>
            simp only [List.getD_cons_succ]
            exact hmin k' (by simpa using hk)
        · intro k hk
          cases k with
          | zero => simpa using hc
          | succ k' =>
            simp only [List.getD_cons_succ]
            exact hstrict k' (by omega)

theorem minWithIdxG_of_ne_nil {α : Type} [LinearOrder α] {l : List α}
    (h : l ≠ []) : ∃ b, minWithIdxG l = some (b, argminIdxG l) := by
  cases hm : minWithIdxG l with
  | none => exact absurd (minWithIdxG_eq_none hm) h
  | some bj =>
    obtain ⟨b, j⟩ := bj
    exact ⟨b, by simp [argminIdxG, hm]⟩

theorem argminIdxG_spec {α : Type} [LinearOrder α] (d : α) (l : List α)
    (h : l ≠ []) :
    argminIdxG l < l.length ∧
    (∀ k, k < l.length → l.getD (argminIdxG l) d ≤ l.getD k d) ∧
    (∀ k, k < argminIdxG l → l.getD (argminIdxG l) d < l.getD k d) := by
  obtain ⟨b, hm⟩ := minWithIdxG_of_ne_nil h
  obtain ⟨hlen, hget, hmin, hstrict⟩ := minWithIdxG_spec d l b (argminIdxG l) hm
  rw [hget]
  exact ⟨hlen, hmin, hstrict⟩

/-- The minimum of a list of extended costs (`⊤` on the empty list). -/
def minTotalG (ts : List (WithTop ℚ)) : WithTop ℚ :=
  match minWithIdxG ts with
  | none => ⊤
  | some bj => bj.1

/-- Modelled from the spec: an IEEE-754-like cost scalar as produced by the
simulator — either a finite value (modelled exactly as a rational) or NaN
(spec §7: the integrator may produce non-finite values that the task does
not mask). -/
inductive NanQ where
  | nan
  | num (q : ℚ)
deriving Repr, DecidableEq

/-- Modelled from the spec: a candidate's total cost, summed in IEEE-like
arithmetic — any NaN entry makes the total NaN (NaN is absorbing). -/
def nanSum (row : List NanQ) : NanQ :=
  row.foldr (fun a b =>
    match a, b with
    | NanQ.num x, NanQ.num y => NanQ.num (x + y)
    | _, _ => NanQ.nan) (NanQ.num 0)

/-- Modelled from the spec (§7 propagation policy): before the reduction the
controller treats a NaN total as +infinity — the candidate is penalized
rather than letting NaN enter the argmin / weighted average. -/
def sanitizeTotal : NanQ → WithTop ℚ
  | NanQ.nan => ⊤
  | NanQ.num q => (q : WithTop ℚ)

/-- Modelled from the spec (§7): per-candidate total costs with NaN
sanitized to +infinity. -/
def nanSafeTotals (costs : List (List NanQ)) : List (WithTop ℚ) :=
  costs.map (fun row => sanitizeTotal (nanSum row))

/-- Modelled from the spec (§7 applied to §4.3): Predictive Sampling's
update with the NaN-excluding reduction — the stable argmin runs over the
sanitized totals, in which NaN candidates carry cost +infinity. -/
def ps_update_params_nansafe (p : PolicyParams) (costs : List (List NanQ))
    (controls : List ControlSeq) : PolicyParams :=
  { mean := controls.getD (argminIdxG (nanSafeTotals costs)) [],
    rng := p.rng }

/-- Modelled from the spec (§7 applied to §4.3): MPPI weights over sanitized
totals — a NaN (+infinity) candidate receives weight exp(-infinity) = 0,
finite candidates the usual softmax-like weight; the weights live in plain
rationals, so NaN never enters the reduction. -/
def mppiWeightsNanSafe (ef : ℚ → ℚ) (temperature : ℚ)
    (ts : List (WithTop ℚ)) : List ℚ :=
  ts.map (fun t =>
    if t = ⊤ then 0
    else ef (-((t.untop' 0 - (minTotalG ts).untop' 0) / temperature)))

/-- Modelled from the spec (§7 applied to §4.3): the MPPI new nominal mean
with NaN-safe weights — entrywise weighted average over all candidates, NaN
candidates contributing weight 0. -/
def mppiNewMeanNanSafe (ef : ℚ → ℚ) (temperature : ℚ)
    (costs : List (List NanQ)) (cands : List ControlSeq)
    (Hm1 dim : ℕ) : ControlSeq :=
  (List.range Hm1).map (fun t =>
    (List.range dim).map (fun d =>
      ((List.range (nanSafeTotals costs).length).map (fun i =>
        (mppiWeightsNanSafe ef temperature (nanSafeTotals costs)).getD i 0 *
          ((cands.getD i []).getD t []).getD d 0)).sum /
        (mppiWeightsNanSafe ef temperature (nanSafeTotals costs)).sum))

theorem map_set_comm {α β : Type} (f : α → β) :
    ∀ (l : List α) (k : ℕ) (a : α), (l.set k a).map f = (l.map f).set k (f a) := by
  intro l
  induction l with
  | nil => intro k a; simp
  | cons c rest ih =>
    intro k a
    cases k with
    | zero => simp
    | succ k' => simp [ih]

theorem set_getD_eq_self {α : Type} :
    ∀ (l : List α) (k : ℕ) (d : α), l.set k (l.getD k d) = l := by
  intro l
  induction l with
  | nil => intro k d; simp
  | cons c rest ih =>
    intro k d
    cases k with
    | zero => simp
    | succ k' =>
      rw [List.getD_cons_succ]
      show c :: rest.set k' (rest.getD k' d) = c :: rest
      rw [ih k' d]

theorem getD_set_ne {α : Type} :
    ∀ (l : List α) (k i : ℕ) (a d : α), k ≠ i →
      (l.set k a).getD i d = l.getD i d := by
  intro l
  induction l with
  | nil => intro k i a d _; simp
  | cons c rest ih =>
    intro k i a d hki
    cases k with
    | zero =>
      cases i with
      | zero => exact absurd rfl hki
      | succ i' => simp
    | succ k' =>
      cases i with
      | zero => simp
      | succ i' => simpa using ih k' i' a d (by omega)

theorem map_congr_mem {α β : Type} :
    ∀ (l : List α) (f g : α → β), (∀ a ∈ l, f a = g a) → l.map f = l.map g := by
  intro l
  induction l with
  | nil => intro f g _; rfl
  | cons c rest ih =>
    intro f g h
    simp only [List.map_cons, h c (by simp)]
    rw [ih f g (fun a ha => h a (by simp [ha]))]

/-- Claim C7: when exactly one candidate's cost entries are NaN, both
controllers' reductions exclude or penalize that candidate as if its cost
were +infinity: the Predictive Sampling argmin never selects it and picks a
finite-cost candidate's controls verbatim, the result is unchanged under
replacing the NaN row (determined only by the remaining candidates), the
MPPI weight of the NaN candidate is 0 while every finite candidate's weight
is positive, the weights are unchanged under replacing the NaN row, and the
MPPI mean ignores the NaN candidate's control sequence; the reductions
compute in plain rationals, so NaN is never propagated into them. -/
theorem nan_candidate_excluded_from_update (ef : ℚ → ℚ) (temperature : ℚ)
    (Hm1 dim : ℕ) (p : PolicyParams) (costs : List (List NanQ))
    (controls : List ControlSeq) (k : ℕ)
    (hk : k < costs.length)
    (hnan : nanSum (costs.getD k []) = NanQ.nan)
    (hfin : ∀ i, i < costs.length → i ≠ k → nanSum (costs.getD i []) ≠ NanQ.nan)
    (hK : 2 ≤ costs.length)
    (hef : ∀ x, 0 < ef x) :
    argminIdxG (nanSafeTotals costs) ≠ k ∧
    argminIdxG (nanSafeTotals costs) < costs.length ∧
    nanSum (costs.getD (argminIdxG (nanSafeTotals costs)) []) ≠ NanQ.nan ∧
    (ps_update_params_nansafe p costs controls).mean =
      controls.getD (argminIdxG (nanSafeTotals costs)) [] ∧
    (∀ row', nanSum row' = NanQ.nan →
      ps_update_params_nansafe p (costs.set k row') controls =
        ps_update_params_nansafe p costs controls) ∧
    (mppiWeightsNanSafe ef temperature (nanSafeTotals costs)).getD k 0 = 0 ∧
    (∀ i, i < costs.length → i ≠ k →
      0 < (mppiWeightsNanSafe ef temperature (nanSafeTotals costs)).getD i 0) ∧
    (∀ row', nanSum row' = NanQ.nan →
      mppiWeightsNanSafe ef temperature (nanSafeTotals (costs.set k row')) =
        mppiWeightsNanSafe ef temperature (nanSafeTotals costs)) ∧
    (∀ c', mppiNewMeanNanSafe ef temperature costs (controls.set k c') Hm1 dim =
      mppiNewMeanNanSafe ef temperature costs controls Hm1 dim) := by
  have hlen_ts : (nanSafeTotals costs).length = costs.length := by
    simp [nanSafeTotals]
  have hts_ne : nanSafeTotals costs ≠ [] := by
    intro h0
    rw [← List.length_eq_zero, hlen_ts] at h0
    omega
  have hts_getD : ∀ i, i < costs.length →
      (nanSafeTotals costs).getD i ⊤ = sanitizeTotal (nanSum (costs.getD i [])) :=
    fun i hi => getD_map_of_lt _ costs i [] ⊤ hi
  have htsk : (nanSafeTotals costs).getD k ⊤ = ⊤ := by
    rw [hts_getD k hk, hnan]
    rfl
  have hts_fin : ∀ i, i < costs.length → i ≠ k →
      (nanSafeTotals costs).getD i ⊤ ≠ ⊤ := by
    intro i hi hik
    rw [hts_getD i hi]
    cases hs : nanSum (costs.getD i []) with
    | nan => exact absurd hs (hfin i hi hik)
    | num q => exact WithTop.coe_ne_top
  obtain ⟨hlt, hmin, -⟩ := argminIdxG_spec ⊤ (nanSafeTotals costs) hts_ne
  rw [hlen_ts] at hlt
  -- a finite-cost candidate other than k exists
  have hi0 : ∃ i0, i0 < costs.length ∧ i0 ≠ k := by
    by_cases hk0 : k = 0
    · exact ⟨1, by omega, by omega⟩
    · exact ⟨0, by omega, fun h => hk0 h.symm⟩
  obtain ⟨i0, hi0lt, hi0ne⟩ := hi0
  have hb_ne_top : (nanSafeTotals costs).getD (argminIdxG (nanSafeTotals costs)) ⊤ ≠ ⊤ := by
    intro htop
    have hle := hmin i0 (hlen_ts ▸ hi0lt)
    rw [htop] at hle
    exact hts_fin i0 hi0lt hi0ne (top_le_iff.mp hle)
  have hA : argminIdxG (nanSafeTotals costs) ≠ k := by
    intro heq
    rw [heq, htsk] at hb_ne_top
    exact hb_ne_top rfl
  have hB : nanSum (costs.getD (argminIdxG (nanSafeTotals costs)) []) ≠ NanQ.nan := by
    intro hs
    rw [hts_getD _ hlt, hs] at hb_ne_top
    exact hb_ne_top rfl
  have hset_ts : ∀ row', nanSum row' = NanQ.nan →
      nanSafeTotals (costs.set k row') = nanSafeTotals costs := by
    intro row' hrow'
    show (costs.set k row').map (fun row => sanitizeTotal (nanSum row)) = _
    rw [map_set_comm]
    show (nanSafeTotals costs).set k (sanitizeTotal (nanSum row')) = _
    rw [hrow']
    show (nanSafeTotals costs).set k ⊤ = _
    rw [← htsk, set_getD_eq_self]
  have hw_getD : ∀ i, i < costs.length →
      (mppiWeightsNanSafe ef temperature (nanSafeTotals costs)).getD i 0 =
        (if (nanSafeTotals costs).getD i ⊤ = ⊤ then 0
         else ef (-((((nanSafeTotals costs).getD i ⊤).untop' 0 -
           (minTotalG (nanSafeTotals costs)).untop' 0) / temperature))) := by
    intro i hi
    exact getD_map_of_lt _ (nanSafeTotals costs) i ⊤ 0 (hlen_ts ▸ hi)
  have hE : (mppiWeightsNanSafe ef temperature (nanSafeTotals costs)).getD k 0 = 0 := by
    rw [hw_getD k hk, if_pos htsk]
  refine ⟨hA, hlt, hB, rfl, ?_, hE, ?_, ?_, ?_⟩
  · intro row' hrow'
    simp only [ps_update_params_nansafe, hset_ts row' hrow']
  · intro i hi hik
    rw [hw_getD i hi, if_neg (hts_fin i hi hik)]
    exact hef _
  · intro row' hrow'
    rw [hset_ts row' hrow']
  · intro c'
    simp only [mppiNewMeanNanSafe]
    apply map_congr_mem
    intro t _
    apply map_congr_mem
    intro d _
    congr 1
    refine congrArg List.sum ?_
    apply map_congr_mem
    intro i hi
    have hi' : i < costs.length := by
      rw [← hlen_ts]
      exact List.mem_range.mp hi
    by_cases hik : i = k
    · subst hik
      rw [hE]
      simp
    · rw [getD_set_ne controls k i c' [] (fun h => hik h.symm)]

/-- Concrete instance of `nan_candidate_excluded_from_update`. -/
theorem nan_candidate_excluded_from_update_witness :
    1 < ([[NanQ.num 1], [NanQ.nan]] : List (List NanQ)).length ∧
    nanSum (([[NanQ.num 1], [NanQ.nan]] : List (List NanQ)).getD 1 []) = NanQ.nan ∧
    (∀ i, i < ([[NanQ.num 1], [NanQ.nan]] : List (List NanQ)).length → i ≠ 1 →
      nanSum (([[NanQ.num 1], [NanQ.nan]] : List (List NanQ)).getD i []) ≠ NanQ.nan) ∧
    2 ≤ ([[NanQ.num 1], [NanQ.nan]] : List (List NanQ)).length ∧
    (∀ x : ℚ, 0 < (fun _ : ℚ => (1 : ℚ)) x) ∧
    (argminIdxG (nanSafeTotals [[NanQ.num 1], [NanQ.nan]]) ≠ 1 ∧
      argminIdxG (nanSafeTotals [[NanQ.num 1], [NanQ.nan]]) <
        ([[NanQ.num 1], [NanQ.nan]] : List (List NanQ)).length ∧
      nanSum (([[NanQ.num 1], [NanQ.nan]] : List (List NanQ)).getD
        (argminIdxG (nanSafeTotals [[NanQ.num 1], [NanQ.nan]])) []) ≠ NanQ.nan ∧
      (ps_update_params_nansafe (PolicyParams.mk [[(0 : ℚ)]] 9)
          [[NanQ.num 1], [NanQ.nan]] [[[(2 : ℚ)]], [[3]]]).mean =
        ([[[(2 : ℚ)]], [[3]]] : List ControlSeq).getD
          (argminIdxG (nanSafeTotals [[NanQ.num 1], [NanQ.nan]])) [] ∧
      (∀ row', nanSum row' = NanQ.nan →
        ps_update_params_nansafe (PolicyParams.mk [[(0 : ℚ)]] 9)
            ([[NanQ.num 1], [NanQ.nan]].set 1 row') [[[(2 : ℚ)]], [[3]]] =
          ps_update_params_nansafe (PolicyParams.mk [[(0 : ℚ)]] 9)
            [[NanQ.num 1], [NanQ.nan]] [[[(2 : ℚ)]], [[3]]]) ∧
      (mppiWeightsNanSafe (fun _ : ℚ => (1 : ℚ)) 1
        (nanSafeTotals [[NanQ.num 1], [NanQ.nan]])).getD 1 0 = 0 ∧
      (∀ i, i < ([[NanQ.num 1], [NanQ.nan]] : List (List NanQ)).length → i ≠ 1 →
        0 < (mppiWeightsNanSafe (fun _ : ℚ => (1 : ℚ)) 1
          (nanSafeTotals [[NanQ.num 1], [NanQ.nan]])).getD i 0) ∧
      (∀ row', nanSum row' = NanQ.nan →
        mppiWeightsNanSafe (fun _ : ℚ => (1 : ℚ)) 1
            (nanSafeTotals ([[NanQ.num 1], [NanQ.nan]].set 1 row')) =
          mppiWeightsNanSafe (fun _ : ℚ => (1 : ℚ)) 1
            (nanSafeTotals [[NanQ.num 1], [NanQ.nan]])) ∧
      (∀ c', mppiNewMeanNanSafe (fun _ : ℚ => (1 : ℚ)) 1
          [[NanQ.num 1], [NanQ.nan]] ([[[(2 : ℚ)]], [[3]]].set 1 c') 1 1 =
        mppiNewMeanNanSafe (fun _ : ℚ => (1 : ℚ)) 1
          [[NanQ.num 1], [NanQ.nan]] [[[(2 : ℚ)]], [[3]]] 1 1)) :=
  ⟨by decide, by decide,
   by
     intro i hi hne
     cases i with
     | zero => decide
     | succ i' =>
       cases i' with
       | zero => exact absurd rfl hne
       | succ i'' =>
         simp only [List.length_cons, List.length_nil] at hi
         omega,
   by decide, fun _ => one_pos,
   nan_candidate_excluded_from_update (fun _ : ℚ => (1 : ℚ)) 1 1 1
     (PolicyParams.mk [[(0 : ℚ)]] 9) [[NanQ.num 1], [NanQ.nan]]
     [[[(2 : ℚ)]], [[3]]] 1 (by decide) (by decide)
     (by
       intro i hi hne
       cases i with
       | zero => decide
       | succ i' =>
         cases i' with
         | zero => exact absurd rfl hne
         | succ i'' =>
           simp only [List.length_cons, List.length_nil] at hi
           omega)
     (by decide) (fun _ => one_pos)⟩

end Hydrax
